import Mathlib

/-!
Verification of the axis-ticks library (a port of d3-ticks).

The source (src/lib.rs) computes, for generic IEEE floats, a list of nicely
rounded tick values between two endpoints.  We model the float type by an
idealized value `F`: a finite value is an exact rational, and the special
values `inf`, `ninf` and `nan` are explicit constructors.  Arithmetic on
finite values is exact (no rounding); the propagation rules for the special
values follow IEEE-754, which is what the Rust `Float` trait implements.
Rationals have no negative zero; no reachable computation in this program
distinguishes `-0.0` from `0.0` (division by zero only happens with a
positive or zero numerator, via `count`).
-/

/-- Idealized floating-point value: an exact rational, or one of the three
IEEE special values. -/
inductive F where
| fin : ℚ → F
| inf : F
| ninf : F
| nan : F
deriving DecidableEq, Repr

/-- Models `Float::is_finite`. -/
def F.isFinite : F → Bool
  | F.fin _ => true
  | _ => false

/-- Models `Zero::is_zero` on a float (`x == 0.0`; NaN and infinities are not
zero). -/
def F.isZero : F → Bool
  | F.fin a => a == 0
  | _ => false

/-- Models `Float::is_sign_positive` (the sign bit).  `ℚ` has a single zero,
which we treat as `+0.0`; NaN is given a positive sign bit, but the program
only queries the sign after ruling out zero and non-finite values. -/
def F.isSignPositive : F → Bool
  | F.fin a => 0 ≤ a
  | F.inf => true
  | F.ninf => false
  | F.nan => true

/-- Models IEEE float equality `==` (NaN is not equal to anything, equal
infinities compare equal). -/
def F.beq : F → F → Bool
  | F.fin a, F.fin b => a == b
  | F.inf, F.inf => true
  | F.ninf, F.ninf => true
  | _, _ => false

/-- Models IEEE float `<` (any comparison involving NaN is false). -/
def F.blt : F → F → Bool
  | F.fin a, F.fin b => a < b
  | F.fin _, F.inf => true
  | F.ninf, F.fin _ => true
  | F.ninf, F.inf => true
  | _, _ => false

/-- Models IEEE float `<=` (any comparison involving NaN is false). -/
def F.ble : F → F → Bool
  | F.fin a, F.fin b => a ≤ b
  | F.fin _, F.inf => true
  | F.ninf, F.fin _ => true
  | F.ninf, F.inf => true
  | F.inf, F.inf => true
  | F.ninf, F.ninf => true
  | _, _ => false

/-- Models IEEE float subtraction. -/
def F.sub : F → F → F
  | F.nan, _ => F.nan
  | _, F.nan => F.nan
  | F.fin a, F.fin b => F.fin (a - b)
  | F.fin _, F.inf => F.ninf
  | F.fin _, F.ninf => F.inf
  | F.inf, F.fin _ => F.inf
  | F.inf, F.inf => F.nan
  | F.inf, F.ninf => F.inf
  | F.ninf, F.fin _ => F.ninf
  | F.ninf, F.inf => F.ninf
  | F.ninf, F.ninf => F.nan

/-- Models IEEE float addition. -/
def F.add : F → F → F
  | F.nan, _ => F.nan
  | _, F.nan => F.nan
  | F.fin a, F.fin b => F.fin (a + b)
  | F.fin _, F.inf => F.inf
  | F.fin _, F.ninf => F.ninf
  | F.inf, F.fin _ => F.inf
  | F.ninf, F.fin _ => F.ninf
  | F.inf, F.inf => F.inf
  | F.inf, F.ninf => F.nan
  | F.ninf, F.inf => F.nan
  | F.ninf, F.ninf => F.ninf

/-- Models IEEE float multiplication (`0 * ±inf = NaN`). -/
def F.mul : F → F → F
  | F.nan, _ => F.nan
  | _, F.nan => F.nan
  | F.fin a, F.fin b => F.fin (a * b)
  | F.fin a, F.inf => if 0 < a then F.inf else if a < 0 then F.ninf else F.nan
  | F.fin a, F.ninf => if 0 < a then F.ninf else if a < 0 then F.inf else F.nan
  | F.inf, F.fin b => if 0 < b then F.inf else if b < 0 then F.ninf else F.nan
  | F.ninf, F.fin b => if 0 < b then F.ninf else if b < 0 then F.inf else F.nan
  | F.inf, F.inf => F.inf
  | F.inf, F.ninf => F.ninf
  | F.ninf, F.inf => F.ninf
  | F.ninf, F.ninf => F.inf

/-- Models IEEE float division.  A nonzero finite value divided by `+0.0`
gives a signed infinity, `0/0` and `inf/inf` give NaN, and finite values
divided by an infinity give zero. -/
def F.div : F → F → F
  | F.nan, _ => F.nan
  | _, F.nan => F.nan
  | F.fin a, F.fin b =>
      if b = 0 then (if 0 < a then F.inf else if a < 0 then F.ninf else F.nan)
      else F.fin (a / b)
  | F.fin _, F.inf => F.fin 0
  | F.fin _, F.ninf => F.fin 0
  | F.inf, F.fin b => if 0 ≤ b then F.inf else F.ninf
  | F.ninf, F.fin b => if 0 ≤ b then F.ninf else F.inf
  | F.inf, F.inf => F.nan
  | F.inf, F.ninf => F.nan
  | F.ninf, F.inf => F.nan
  | F.ninf, F.ninf => F.nan

/-- Models `Float::floor`. -/
def F.floor : F → F
  | F.fin a => F.fin ⌊a⌋
  | F.inf => F.inf
  | F.ninf => F.ninf
  | F.nan => F.nan

/-- Models `Float::ceil`. -/
def F.ceil : F → F
  | F.fin a => F.fin ⌈a⌉
  | F.inf => F.inf
  | F.ninf => F.ninf
  | F.nan => F.nan

/-- Models the fused expression `(x.ln() / T::LN_10()).floor()` from
`tick_increment`.  Over the exact reals this value is `⌊log₁₀ x⌋` for
`x > 0`, which is `Int.log 10 x`; `ln 0 = -inf` so the floor is `-inf`,
`ln` of a negative number is NaN, `ln inf = inf`. -/
def F.flog10 : F → F
  | F.fin a => if 0 < a then F.fin (Int.log 10 a) else if a = 0 then F.ninf else F.nan
  | F.inf => F.inf
  | F.ninf => F.nan
  | F.nan => F.nan

/-- Models `10.0.powf(p)`.  In this program the exponent is always
integer-valued (a `floor` result or its negation), where `powf` is exact,
so a finite exponent is interpreted through its floor (the two agree on
every call site).  `10^inf = inf`, `10^(-inf) = 0`. -/
def F.pow10 : F → F
  | F.fin a => F.fin ((10 : ℚ) ^ ⌊a⌋)
  | F.inf => F.inf
  | F.ninf => F.fin 0
  | F.nan => F.nan

/-- Models the fused comparison `x >= c.sqrt()` for a positive rational
constant `c` (the program uses `c ∈ {50, 10, 2}`).  Over the exact reals,
for `√c > 0` we have `x ≥ √c ↔ 0 ≤ x ∧ c ≤ x²`; the comparison is false
for NaN and `-inf` and true for `inf`, matching IEEE `>=`. -/
def F.geSqrt (x : F) (c : ℚ) : Bool :=
  match x with
  | F.fin a => 0 ≤ a ∧ c ≤ a ^ 2
  | F.inf => true
  | F.ninf => false
  | F.nan => false

/-- Models `num_traits`' `ToPrimitive::to_usize` on a float (64-bit
`usize`): `Some` with truncation toward zero exactly when the value lies in
`(-1, usize::MAX as f64]` (that upper bound rounds to `2^64`), `None` for
NaN, the infinities and everything else out of range.  `⌊a⌋.toNat` equals
truncation toward zero on the accepted window, since for `-1 < a < 0` the
floor `-1` is clamped to `0` by `toNat`. -/
def F.toUsize : F → Option ℕ
  | F.fin a => if -1 < a ∧ a ≤ 2 ^ 64 then some ⌊a⌋.toNat else none
  | _ => none

/-- The body of `tick_increment` after the raw step `(stop - start) / count`
has been computed (src/lib.rs lines 73-94). -/
def tickIncrFrom (step : F) : F :=
  let power := step.flog10
  let error := step.div (F.pow10 power)
  let v : F :=
    if error.geSqrt 50 then F.fin 10
    else if error.geSqrt 10 then F.fin 5
    else if error.geSqrt 2 then F.fin 2
    else F.fin 1
  if (F.fin 0).ble power then v.mul (F.pow10 power)
  else ((F.fin (-1)).mul (F.pow10 (power.mul (F.fin (-1))))).div v

/-- Models `tick_increment` (src/lib.rs lines 71-95).  `T::from_usize` on the
count is exact in the idealized model. -/
def tick_increment (start stop : F) (count : ℕ) : F :=
  tickIncrFrom ((stop.sub start).div (F.fin count))

/-- The positive-step branch of `ticks` (src/lib.rs lines 37-48).  The Rust
code allocates a zero-filled vector of length `n` and overwrites entry `i`
with `(start + i) * step`, which is the mapped range below; `none` models
the panic of `.to_usize().unwrap()`. -/
def upTicks (start stop step : F) : Option (List F) :=
  let start' := (start.div step).ceil
  let stop' := (stop.div step).floor
  (((stop'.sub start').add (F.fin 1)).ceil.toUsize).map
    (fun n => (List.range n).map fun (i : ℕ) => (start'.add (F.fin (i : ℚ))).mul step)

/-- The negative-step branch of `ticks` (src/lib.rs lines 49-62): the step is
negated into a positive scale, endpoints are multiplied by the scale, and
entry `i` is `(start + i) / scale`. -/
def downTicks (start stop step : F) : Option (List F) :=
  let step' := step.mul (F.fin (-1))
  let start' := (start.mul step').floor
  let stop' := (stop.mul step').ceil
  (((stop'.sub start').add (F.fin 1)).ceil.toUsize).map
    (fun n => (List.range n).map fun (i : ℕ) => (start'.add (F.fin (i : ℚ))).div step')

/-- Models `ticks` (src/lib.rs lines 20-69).  `none` models a panic of the
`to_usize().unwrap()` cast; `some l` is a normal return of the vector `l`. -/
def ticks (start stop : F) (count : ℕ) : Option (List F) :=
  if start.beq stop = true ∧ 0 < count then some [start]
  else
    let reverse := stop.blt start
    let start' := if reverse then stop else start
    let stop' := if reverse then start else stop
    let step := tick_increment start' stop' count
    if step.isZero = true ∨ step.isFinite = false then some []
    else
      let body :=
        if step.isSignPositive then upTicks start' stop' step
        else downTicks start' stop' step
      if reverse then body.map List.reverse else body

/-! ### Basic computation lemmas for the model -/

lemma F.div_fin_fin (a b : ℚ) (hb : b ≠ 0) :
    (F.fin a).div (F.fin b) = F.fin (a / b) := by
  simp [F.div, hb]

lemma F.sub_fin_fin (a b : ℚ) : (F.fin a).sub (F.fin b) = F.fin (a - b) := rfl

lemma F.add_fin_fin (a b : ℚ) : (F.fin a).add (F.fin b) = F.fin (a + b) := rfl

lemma F.mul_fin_fin (a b : ℚ) : (F.fin a).mul (F.fin b) = F.fin (a * b) := rfl

lemma F.ceil_fin (a : ℚ) : (F.fin a).ceil = F.fin ⌈a⌉ := rfl

lemma F.floor_fin (a : ℚ) : (F.fin a).floor = F.fin ⌊a⌋ := rfl

lemma tickIncrFrom_inf : tickIncrFrom F.inf = F.inf := by decide

lemma tickIncrFrom_ninf : tickIncrFrom F.ninf = F.nan := by decide

lemma tickIncrFrom_nan : tickIncrFrom F.nan = F.nan := by decide

lemma tickIncrFrom_zero : tickIncrFrom (F.fin 0) = F.ninf := by decide

lemma F.div_inf_natCast (c : ℕ) : F.inf.div (F.fin (c : ℚ)) = F.inf := by
  simp [F.div, Nat.cast_nonneg]

lemma F.div_ninf_natCast (c : ℕ) : F.ninf.div (F.fin (c : ℚ)) = F.ninf := by
  simp [F.div, Nat.cast_nonneg]

lemma F.div_nan_left (x : F) : F.nan.div x = F.nan := by cases x <;> rfl

lemma F.sub_nan_left (x : F) : F.nan.sub x = F.nan := by cases x <;> rfl

lemma F.sub_nan_right (x : F) : x.sub F.nan = F.nan := by cases x <;> rfl

/-- If the selected step is finite then both endpoints were finite. -/
lemma tick_increment_isFinite (s t : F) (c : ℕ)
    (h : (tick_increment s t c).isFinite = true) :
    ∃ a b : ℚ, s = F.fin a ∧ t = F.fin b := by
  cases s <;> cases t
  case fin.fin a b => exact ⟨a, b, rfl, rfl⟩
  all_goals
    simp_all [tick_increment, F.sub, F.div_inf_natCast, F.div_ninf_natCast,
      F.div_nan_left, tickIncrFrom_inf, tickIncrFrom_ninf, tickIncrFrom_nan,
      F.isFinite]

lemma F.pow10_fin_int (z : ℤ) : F.pow10 (F.fin (z : ℚ)) = F.fin ((10 : ℚ) ^ z) := by
  simp [F.pow10, Int.floor_intCast]

lemma tickIncr_pos_branch (z : ℤ) (v : ℚ) :
    (F.fin v).mul (F.pow10 (F.fin (z : ℚ))) = F.fin (v * (10 : ℚ) ^ z) := by
  rw [F.pow10_fin_int, F.mul_fin_fin]

lemma tickIncr_neg_branch (z : ℤ) (v : ℚ) (hv : v ≠ 0) :
    ((F.fin (-1)).mul (F.pow10 (F.fin (-(z : ℚ))))).div (F.fin v) =
      F.fin (-((10 : ℚ) ^ z)⁻¹ / v) := by
  have h : (-(z : ℚ)) = ((-z : ℤ) : ℚ) := by push_cast; ring
  rw [h, F.pow10_fin_int, F.mul_fin_fin, F.div_fin_fin _ _ hv, zpow_neg]
  norm_num

/-- On a finite positive raw step, `tickIncrFrom` computes the exact rational
given by the d3 nice-step formula (square-root comparisons carried out on
squares). -/
lemma tickIncrFrom_pos (r : ℚ) (hr : 0 < r) :
    tickIncrFrom (F.fin r) =
      F.fin
        (let z := Int.log 10 r
         let e := r / 10 ^ z
         let v : ℚ :=
           if 50 ≤ e ^ 2 then 10 else if 10 ≤ e ^ 2 then 5
           else if 2 ≤ e ^ 2 then 2 else 1
         if 0 ≤ z then v * 10 ^ z else -1 * 10 ^ (-z) / v) := by
  have h10 : (0 : ℚ) < 10 ^ Int.log 10 r := zpow_pos (by norm_num) _
  have he : 0 ≤ r / 10 ^ Int.log 10 r := (div_pos hr h10).le
  simp only [tickIncrFrom, F.flog10, if_pos hr, F.pow10_fin_int,
    F.div_fin_fin _ _ h10.ne', F.geSqrt, F.ble, decide_eq_true_eq, he, true_and,
    Int.cast_nonneg]
  split_ifs with h1 h2 h3 h4 h5 h6 h7 <;>
    simp [F.mul_fin_fin, tickIncr_neg_branch]

lemma F.blt_facts (x y : F) (h : x.blt y = true) :
    x.beq y = false ∧ y.beq x = false ∧ y.blt x = false := by
  cases x <;> cases y <;> simp_all [F.blt, F.beq]
  exact ⟨h.ne, h.ne', h.le⟩

/-- Unfolding of `ticks` on the forward path (unequal endpoints, no reversal). -/
lemma ticks_fwd (start stop : F) (count : ℕ)
    (hne : start.beq stop = false) (hrev : stop.blt start = false) :
    ticks start stop count =
      (let step := tick_increment start stop count
       if step.isZero = true ∨ step.isFinite = false then some []
       else if step.isSignPositive then upTicks start stop step
       else downTicks start stop step) := by
  simp only [ticks, hne, hrev, Bool.false_eq_true, false_and, if_false]

/-- Unfolding of `ticks` on the reversed path. -/
lemma ticks_rev (start stop : F) (count : ℕ)
    (hne : start.beq stop = false) (hrev : stop.blt start = true) :
    ticks start stop count =
      (let step := tick_increment stop start count
       if step.isZero = true ∨ step.isFinite = false then some []
       else Option.map List.reverse
         (if step.isSignPositive then upTicks stop start step
          else downTicks stop start step)) := by
  simp only [ticks, hne, hrev, Bool.false_eq_true, false_and, if_false, if_true]

/-- Closed form of the positive-step branch on finite inputs when the length
cast succeeds. -/
lemma upTicks_some (a b q : ℚ) (hq : q ≠ 0) (l : List F)
    (hl : upTicks (F.fin a) (F.fin b) (F.fin q) = some l) :
    l = (List.range (⌊b / q⌋ - ⌈a / q⌉ + 1).toNat).map
        (fun n : ℕ => F.fin (((⌈a / q⌉ + n : ℤ) : ℚ) * q)) := by
  have h1 : (F.fin a).div (F.fin q) = F.fin (a / q) := F.div_fin_fin _ _ hq
  have h2 : (F.fin b).div (F.fin q) = F.fin (b / q) := F.div_fin_fin _ _ hq
  have hx : ((⌊b / q⌋ : ℚ) - (⌈a / q⌉ : ℚ) + 1) = ((⌊b / q⌋ - ⌈a / q⌉ + 1 : ℤ) : ℚ) := by
    push_cast
    ring
  simp only [upTicks, h1, h2, F.ceil_fin, F.floor_fin, F.sub_fin_fin, F.add_fin_fin, hx,
    Int.ceil_intCast, Int.floor_intCast, F.toUsize] at hl
  rw [Option.map_eq_some'] at hl
  obtain ⟨n, hn, hfn⟩ := hl
  split at hn
  · rw [Option.some.injEq] at hn
    subst hn
    subst hfn
    apply List.map_congr_left
    intro i _
    rw [F.mul_fin_fin]
    congr 1
    push_cast
    ring
  · exact absurd hn (by simp)

/-- Closed form of the negative-step branch on finite inputs when the length
cast succeeds. -/
lemma downTicks_some (a b s : ℚ) (hs : s ≠ 0) (l : List F)
    (hl : downTicks (F.fin a) (F.fin b) (F.fin s) = some l) :
    l = (List.range (⌈b * -s⌉ - ⌊a * -s⌋ + 1).toNat).map
        (fun n : ℕ => F.fin (((⌊a * -s⌋ + n : ℤ) : ℚ) / -s)) := by
  have hs' : -s ≠ 0 := neg_ne_zero.mpr hs
  have hm : (F.fin s).mul (F.fin (-1)) = F.fin (-s) := by
    rw [F.mul_fin_fin]
    norm_num
  have hx : ((⌈b * -s⌉ : ℚ) - (⌊a * -s⌋ : ℚ) + 1) =
      ((⌈b * -s⌉ - ⌊a * -s⌋ + 1 : ℤ) : ℚ) := by
    push_cast
    ring
  simp only [downTicks, hm, F.mul_fin_fin, F.ceil_fin, F.floor_fin, F.sub_fin_fin,
    F.add_fin_fin, hx, Int.ceil_intCast, Int.floor_intCast, F.toUsize] at hl
  rw [Option.map_eq_some'] at hl
  obtain ⟨n, hn, hfn⟩ := hl
  split at hn
  · rw [Option.some.injEq] at hn
    subst hn
    subst hfn
    apply List.map_congr_left
    intro i _
    rw [F.div_fin_fin _ _ hs']
    congr 1
    push_cast
    ring
  · exact absurd hn (by simp)

lemma tickIncrFrom_div_zero (d : ℚ) :
    (tickIncrFrom ((F.fin d).div (F.fin 0))).isFinite = false := by
  rcases lt_trichotomy d 0 with h | h | h
  · have hd : (F.fin d).div (F.fin 0) = F.ninf := by
      simp [F.div, h, not_lt.mpr h.le]
    rw [hd, tickIncrFrom_ninf]
    rfl
  · subst h
    have hd : (F.fin 0).div (F.fin 0) = F.nan := by simp [F.div]
    rw [hd, tickIncrFrom_nan]
    rfl
  · have hd : (F.fin d).div (F.fin 0) = F.inf := by simp [F.div, h]
    rw [hd, tickIncrFrom_inf]
    rfl

lemma tick_increment_count_zero (s t : F) :
    (tick_increment s t 0).isFinite = false := by
  cases s <;> cases t
  case fin.fin a b =>
    have h : tick_increment (F.fin a) (F.fin b) 0 =
        tickIncrFrom ((F.fin (b - a)).div (F.fin 0)) := by
      rw [tick_increment, F.sub_fin_fin, Nat.cast_zero]
    rw [h]
    exact tickIncrFrom_div_zero (b - a)
  all_goals
    simp_all [tick_increment, F.sub, F.div, tickIncrFrom_inf, tickIncrFrom_ninf,
      tickIncrFrom_nan, F.isFinite]

/-- C8: for every pair of endpoints, `ticks` with `count = 0` returns the
empty sequence: the step selector divides by zero, yielding a non-finite
step, which the caller rejects; the equal-endpoint shortcut also requires
`count > 0`. -/
theorem ticks_count_zero_is_empty (start stop : F) : ticks start stop 0 = some [] := by
  simp [ticks, tick_increment_count_zero]

/-- C10: the degenerate-interval shortcut is governed by floating-point
equality, not finiteness: whenever a value compares equal to itself
(so also for the infinities, e.g. `ticks(+inf, +inf, 1) = [+inf]`) and
`count > 0`, the single-element sequence is returned, while for NaN the
comparison fails and the result is empty for every count. -/
theorem ticks_shortcut_by_float_equality :
    (∀ (x : F) (count : ℕ), x.beq x = true → 0 < count → ticks x x count = some [x])
    ∧ ticks F.inf F.inf 1 = some [F.inf]
    ∧ ∀ count : ℕ, ticks F.nan F.nan count = some [] := by
  refine ⟨?_, by decide, ?_⟩
  · intro x count hbeq hc
    simp [ticks, hbeq, hc]
  · intro count
    simp [ticks, F.beq, F.blt, tick_increment, F.sub, F.div, tickIncrFrom_nan,
      F.isZero, F.isFinite]

/-- Witness for C10: the general shortcut applies for instance at `-inf`
with `count = 2`. -/
theorem ticks_shortcut_by_float_equality_witness :
    F.ninf.beq F.ninf = true ∧ 0 < 2 ∧ ticks F.ninf F.ninf 2 = some [F.ninf] :=
  ⟨by decide, by decide,
    ticks_shortcut_by_float_equality.1 F.ninf 2 (by decide) (by decide)⟩

/-- C4 counterexample: at `start = NaN` the claimed identity
`ticks(start, start, count) = [start]` fails — the code returns the empty
sequence because `NaN == NaN` is false. -/
theorem ticks_nan_shortcut_counterexample :
    ticks F.nan F.nan 1 = some [] ∧ (some [] : Option (List F)) ≠ some [F.nan] := by
  constructor
  · decide
  · decide

/-- C4 (amended): for every `start` that compares equal to itself (every
non-NaN value, the infinities included) and every `count > 0`,
`ticks(start, start, count)` is the single-element sequence `[start]`. -/
theorem ticks_degenerate_interval (start : F) (count : ℕ)
    (hstart : start.beq start = true) (hc : 0 < count) :
    ticks start start count = some [start] := by
  simp [ticks, hstart, hc]

/-- Witness for C4 (amended) at `start = 3`, `count = 2`. -/
theorem ticks_degenerate_interval_witness :
    (F.fin 3).beq (F.fin 3) = true ∧ 0 < 2 ∧ ticks (F.fin 3) (F.fin 3) 2 = some [F.fin 3] :=
  ⟨by decide, by decide, ticks_degenerate_interval (F.fin 3) 2 (by decide) (by decide)⟩

/-- C5 counterexample: `ticks(+inf, +inf, 1)` returns `[+inf]`, not the
empty sequence, although an endpoint is non-finite. -/
theorem ticks_nonfinite_counterexample :
    ticks F.inf F.inf 1 = some [F.inf] ∧ (some [F.inf] : Option (List F)) ≠ some [] := by
  constructor
  · decide
  · decide

/-- C5 (amended): when an endpoint is non-finite, `ticks` returns the empty
sequence — except that two equal infinities with `count > 0` take the
degenerate-interval shortcut and return the single-element sequence. -/
theorem ticks_nonfinite_empty (start stop : F) (count : ℕ)
    (h : start.isFinite = false ∨ stop.isFinite = false) :
    ticks start stop count =
      if start.beq stop = true ∧ 0 < count then some [start] else some [] := by
  cases start <;> cases stop
  case fin.fin a b => simp [F.isFinite] at h
  all_goals
    rcases Nat.eq_zero_or_pos count with hc | hc <;>
      simp_all [ticks, F.beq, F.blt, tick_increment, F.sub, F.div,
        tickIncrFrom_inf, tickIncrFrom_ninf, tickIncrFrom_nan,
        F.isZero, F.isFinite, F.isSignPositive, Nat.cast_nonneg]

/-- Witness for C5 (amended) at `start = NaN`, `stop = 0`, `count = 3`. -/
theorem ticks_nonfinite_empty_witness :
    (F.nan.isFinite = false ∨ (F.fin 0).isFinite = false) ∧
      ticks F.nan (F.fin 0) 3 =
        if F.nan.beq (F.fin 0) = true ∧ 0 < 3 then some [F.nan] else some [] :=
  ⟨Or.inl (by decide), ticks_nonfinite_empty F.nan (F.fin 0) 3 (Or.inl (by decide))⟩

/-- C9 is violated by the code: at `start = 0`, `stop = 1`,
`count = 2^64 - 1 = usize::MAX`, the selected step is `-2e19`, the scaled
length is `2e19 + 1 > usize::MAX`, and the `.to_usize().unwrap()` cast
panics (modelled by `none`). -/
lemma int_log_eq {r : ℚ} (hr : 0 < r) {z : ℤ} (h1 : (10 : ℚ) ^ z ≤ r)
    (h2 : r < (10 : ℚ) ^ (z + 1)) : Int.log 10 r = z := by
  have hb : 1 < (10 : ℕ) := by norm_num
  have h1' : ((10 : ℕ) : ℚ) ^ z ≤ r := by exact_mod_cast h1
  have h2' : r < ((10 : ℕ) : ℚ) ^ (z + 1) := by exact_mod_cast h2
  have ha := (Int.zpow_le_iff_le_log hb hr).mp h1'
  have hbz := (Int.lt_zpow_iff_log_lt hb hr).mp h2'
  omega

/-- The negative-step branch aborts (the length cast fails) when the scaled
length falls outside the `to_usize` window. -/
lemma downTicks_none (a b s : ℚ)
    (h : ¬((-1 : ℚ) < ((⌈b * -s⌉ - ⌊a * -s⌋ + 1 : ℤ) : ℚ) ∧
        ((⌈b * -s⌉ - ⌊a * -s⌋ + 1 : ℤ) : ℚ) ≤ 2 ^ 64)) :
    downTicks (F.fin a) (F.fin b) (F.fin s) = none := by
  have hm : (F.fin s).mul (F.fin (-1)) = F.fin (-s) := by
    rw [F.mul_fin_fin]
    norm_num
  have hx : ((⌈b * -s⌉ : ℚ) - (⌊a * -s⌋ : ℚ) + 1) =
      ((⌈b * -s⌉ - ⌊a * -s⌋ + 1 : ℤ) : ℚ) := by
    push_cast
    ring
  simp only [downTicks, hm, F.mul_fin_fin, F.ceil_fin, F.floor_fin, F.sub_fin_fin,
    F.add_fin_fin, hx, Int.ceil_intCast, Int.floor_intCast, F.toUsize]
  rw [if_neg h]
  rfl

/-- C9 is violated by the code: at `start = 0`, `stop = 1`,
`count = 2^64 - 1 = usize::MAX`, the selected step is `-2e19`, the scaled
length is `2e19 + 1 > usize::MAX`, and the `.to_usize().unwrap()` cast
panics (modelled by `none`). -/
theorem ticks_length_cast_panics : ticks (F.fin 0) (F.fin 1) (2 ^ 64 - 1) = none := by
  have hstep : tick_increment (F.fin 0) (F.fin 1) (2 ^ 64 - 1) =
      F.fin (-(2 * 10 ^ 19)) := by
    have hc : ((2 ^ 64 - 1 : ℕ) : ℚ) = 18446744073709551615 := by norm_num
    have hr : tick_increment (F.fin 0) (F.fin 1) (2 ^ 64 - 1) =
        tickIncrFrom (F.fin (1 / 18446744073709551615)) := by
      rw [tick_increment, F.sub_fin_fin, hc, F.div_fin_fin _ _ (by norm_num)]
      norm_num
    have hlog : Int.log 10 ((1 : ℚ) / 18446744073709551615) = -20 := by
      apply int_log_eq (by norm_num)
      · rw [zpow_neg]
        norm_num
      · norm_num [zpow_neg]
    rw [hr, tickIncrFrom_pos _ (by norm_num), hlog]
    norm_num [zpow_neg]
  rw [ticks_fwd _ _ _ (by decide) (by decide), hstep]
  have hnz : ¬((F.fin (-(2 * 10 ^ 19) : ℚ)).isZero = true ∨
      (F.fin (-(2 * 10 ^ 19) : ℚ)).isFinite = false) := by
    simp [F.isZero, F.isFinite]
  rw [if_neg hnz]
  have hsign : (F.fin (-(2 * 10 ^ 19) : ℚ)).isSignPositive = false := by
    simp [F.isSignPositive]
  rw [hsign]
  simp only [Bool.false_eq_true, if_false]
  apply downTicks_none
  intro hcontra
  have h2 : ((⌈(1 : ℚ) * -(-(2 * 10 ^ 19)  : ℚ)⌉ - ⌊(0 : ℚ) * -(-(2 * 10 ^ 19) : ℚ)⌋ + 1 : ℤ) : ℚ) =
      20000000000000000001 := by
    norm_num
  rw [h2] at hcontra
  exact absurd hcontra.2 (by norm_num)

lemma chain_map_range (g : ℕ → ℚ) (hg : ∀ i, g i ≤ g (i + 1)) (n : ℕ) :
    ((List.range n).map (fun i => F.fin (g i))).Chain' (fun x y => x.ble y = true) := by
  rw [List.chain'_map]
  cases n with
  | zero => simp
  | succ m =>
      rw [List.chain'_range_succ]
      intro i _
      simp [F.ble, hg i]

/-- C7: for `start < stop`, any sequence `ticks` returns is non-decreasing
in the IEEE order. -/
theorem ticks_monotone (start stop : F) (count : ℕ) (l : List F)
    (h : start.blt stop = true) (hl : ticks start stop count = some l) :
    l.Chain' (fun x y => x.ble y = true) := by
  obtain ⟨hne, hne', hrev⟩ := F.blt_facts start stop h
  rw [ticks_fwd start stop count hne hrev] at hl
  by_cases hcond : (tick_increment start stop count).isZero = true ∨
      (tick_increment start stop count).isFinite = false
  · simp only [hcond, if_true] at hl
    rw [Option.some.injEq] at hl
    subst hl
    exact List.chain'_nil
  · rw [not_or] at hcond
    obtain ⟨hz, hf⟩ := hcond
    obtain ⟨q, hq⟩ : ∃ q : ℚ, tick_increment start stop count = F.fin q := by
      cases hc : tick_increment start stop count
      · exact ⟨_, rfl⟩
      all_goals (rw [hc] at hf; exact absurd rfl hf)
    obtain ⟨a, b, rfl, rfl⟩ :=
      tick_increment_isFinite start stop count (by rw [hq]; simp [F.isFinite])
    have hq0 : q ≠ 0 := by
      intro h0
      subst h0
      exact hz (by rw [hq]; rfl)
    rw [hq] at hl
    simp only [F.isZero, F.isFinite, F.isSignPositive] at hl
    rw [if_neg (by simp [hq0])] at hl
    by_cases hsign : (0 : ℚ) ≤ q
    · rw [if_pos (by simp [hsign])] at hl
      have hform := upTicks_some a b q hq0 l hl
      subst hform
      exact chain_map_range _ (fun i => by
        refine mul_le_mul_of_nonneg_right ?_ hsign
        push_cast
        linarith) _
    · rw [if_neg (by simp [hsign])] at hl
      have hscale : (0 : ℚ) < -q := by
        have := lt_of_not_le hsign
        linarith
      have hform := downTicks_some a b q hq0 l hl
      subst hform
      exact chain_map_range _ (fun i => by
        refine (div_le_div_iff_of_pos_right hscale).mpr ?_
        push_cast
        linarith) _

/-- C2: with a finite positive selected step (after normalization
`start ≤ stop`), the positive branch produces exactly the values
`(lo + i) * step` for `i < n` with `lo = ⌈start/step⌉`, `hi = ⌊stop/step⌋`
and `n = hi - lo + 1`; each produced value is an integer multiple of the
step inside `[start, stop]`, and every such multiple is produced. -/
theorem ticks_positive_branch (a b q : ℚ) (count : ℕ) (l : List F)
    (hab : a ≤ b) (hstep : tick_increment (F.fin a) (F.fin b) count = F.fin q)
    (hq : 0 < q) (hl : upTicks (F.fin a) (F.fin b) (F.fin q) = some l) :
    l = (List.range (⌊b / q⌋ - ⌈a / q⌉ + 1).toNat).map
        (fun n : ℕ => F.fin (((⌈a / q⌉ + n : ℤ) : ℚ) * q)) ∧
    (∀ x ∈ l, ∃ k : ℤ, x = F.fin ((k : ℚ) * q) ∧ a ≤ (k : ℚ) * q ∧ (k : ℚ) * q ≤ b) ∧
    (∀ k : ℤ, a ≤ (k : ℚ) * q → (k : ℚ) * q ≤ b → F.fin ((k : ℚ) * q) ∈ l) := by
  have hform := upTicks_some a b q hq.ne' l hl
  refine ⟨hform, ?_, ?_⟩
  · intro x hx
    rw [hform, List.mem_map] at hx
    obtain ⟨i, hi, rfl⟩ := hx
    rw [List.mem_range] at hi
    refine ⟨⌈a / q⌉ + (i : ℤ), rfl, ?_, ?_⟩
    · have h1 : a / q ≤ ((⌈a / q⌉ + (i : ℤ) : ℤ) : ℚ) := by
        have h2 := Int.le_ceil (a / q)
        have h3 : (0 : ℚ) ≤ (i : ℚ) := Nat.cast_nonneg i
        push_cast
        push_cast at h2
        linarith
      exact (div_le_iff₀ hq).mp h1
    · have hk : (⌈a / q⌉ + (i : ℤ)) ≤ ⌊b / q⌋ := by
        have h4 := Int.lt_toNat.mp hi
        omega
      have h5 : ((⌈a / q⌉ + (i : ℤ) : ℤ) : ℚ) ≤ b / q :=
        le_trans (by exact_mod_cast hk) (Int.floor_le _)
      exact (le_div_iff₀ hq).mp h5
  · intro k hk1 hk2
    have hlo : ⌈a / q⌉ ≤ k := Int.ceil_le.mpr ((div_le_iff₀ hq).mpr hk1)
    have hhi : k ≤ ⌊b / q⌋ := Int.le_floor.mpr ((le_div_iff₀ hq).mpr hk2)
    rw [hform, List.mem_map]
    refine ⟨(k - ⌈a / q⌉).toNat, ?_, ?_⟩
    · rw [List.mem_range]
      rw [Int.toNat_lt_toNat (by omega)]
      omega
    · have h6 : (⌈a / q⌉ + ((k - ⌈a / q⌉).toNat : ℤ)) = k := by
        rw [Int.toNat_of_nonneg (by omega)]
        ring
      rw [h6]

lemma tick_increment_01_1 : tick_increment (F.fin 0) (F.fin 1) 1 = F.fin 1 := by
  have hr : tick_increment (F.fin 0) (F.fin 1) 1 = tickIncrFrom (F.fin 1) := by
    rw [tick_increment, F.sub_fin_fin, Nat.cast_one, F.div_fin_fin _ _ one_ne_zero]
    norm_num
  rw [hr, tickIncrFrom_pos _ one_pos]
  norm_num [Int.log_one_right]

lemma upTicks_eval_01 : upTicks (F.fin 0) (F.fin 1) (F.fin 1) = some [F.fin 0, F.fin 1] := by
  norm_num [upTicks, F.div, F.ceil, F.floor, F.sub, F.add, F.mul, F.toUsize]
  rw [show List.range (Int.toNat 2) = [0, 1] from rfl]
  norm_num

/-- Witness for C2 at `start = 0`, `stop = 1`, `count = 1`, step `1`. -/
theorem ticks_positive_branch_witness :
    (0 : ℚ) ≤ 1 ∧ tick_increment (F.fin 0) (F.fin 1) 1 = F.fin 1 ∧ (0 : ℚ) < 1 ∧
      upTicks (F.fin 0) (F.fin 1) (F.fin 1) = some [F.fin 0, F.fin 1] ∧
      (([F.fin 0, F.fin 1] : List F) = (List.range (⌊(1 : ℚ) / 1⌋ - ⌈(0 : ℚ) / 1⌉ + 1).toNat).map
          (fun n : ℕ => F.fin (((⌈(0 : ℚ) / 1⌉ + n : ℤ) : ℚ) * 1)) ∧
        (∀ x ∈ [F.fin 0, F.fin 1],
          ∃ k : ℤ, x = F.fin ((k : ℚ) * 1) ∧ (0 : ℚ) ≤ (k : ℚ) * 1 ∧ (k : ℚ) * 1 ≤ 1) ∧
        (∀ k : ℤ, (0 : ℚ) ≤ (k : ℚ) * 1 → (k : ℚ) * 1 ≤ 1 →
          F.fin ((k : ℚ) * 1) ∈ [F.fin 0, F.fin 1])) :=
  ⟨by norm_num, tick_increment_01_1, by norm_num, upTicks_eval_01,
    ticks_positive_branch 0 1 1 1 [F.fin 0, F.fin 1] (by norm_num)
      tick_increment_01_1 (by norm_num) upTicks_eval_01⟩

lemma ticks_01_1 : ticks (F.fin 0) (F.fin 1) 1 = some [F.fin 0, F.fin 1] := by
  rw [ticks_fwd _ _ _ (by decide) (by decide), tick_increment_01_1]
  simp only [F.isZero, F.isFinite, F.isSignPositive]
  rw [if_neg (by norm_num), if_pos (by norm_num)]
  exact upTicks_eval_01

/-- Witness for C7 at `start = 0`, `stop = 1`, `count = 1`. -/
theorem ticks_monotone_witness :
    (F.fin 0).blt (F.fin 1) = true ∧
      ticks (F.fin 0) (F.fin 1) 1 = some [F.fin 0, F.fin 1] ∧
      ([F.fin 0, F.fin 1] : List F).Chain' (fun x y => x.ble y = true) :=
  ⟨by decide, ticks_01_1,
    ticks_monotone (F.fin 0) (F.fin 1) 1 [F.fin 0, F.fin 1] (by decide) ticks_01_1⟩

/-- C3: with a finite negative selected step (after normalization
`start ≤ stop`), the negative branch produces exactly the values
`(lo + i) / scale` for `i < n`, with `scale = -step`, `lo = ⌊start*scale⌋`,
`hi = ⌈stop*scale⌉` and `n = hi - lo + 1`; the produced multiples bound the
interval: the first value is at most `start` and the last is at least
`stop`. -/
theorem ticks_negative_branch (a b s : ℚ) (count : ℕ) (l : List F)
    (hab : a ≤ b) (hstep : tick_increment (F.fin a) (F.fin b) count = F.fin s)
    (hs : s < 0) (hl : downTicks (F.fin a) (F.fin b) (F.fin s) = some l) :
    l = (List.range (⌈b * -s⌉ - ⌊a * -s⌋ + 1).toNat).map
        (fun n : ℕ => F.fin (((⌊a * -s⌋ + n : ℤ) : ℚ) / -s)) ∧
    l.head? = some (F.fin ((⌊a * -s⌋ : ℚ) / -s)) ∧ ((⌊a * -s⌋ : ℚ) / -s) ≤ a ∧
    l.getLast? = some (F.fin ((⌈b * -s⌉ : ℚ) / -s)) ∧ b ≤ ((⌈b * -s⌉ : ℚ) / -s) := by
  have hsc : (0 : ℚ) < -s := by linarith
  have hform := downTicks_some a b s hs.ne l hl
  have hlohi : ⌊a * -s⌋ ≤ ⌈b * -s⌉ := by
    have h1 : (⌊a * -s⌋ : ℚ) ≤ a * -s := Int.floor_le _
    have h2 : a * -s ≤ b * -s := mul_le_mul_of_nonneg_right hab hsc.le
    have h3 : b * -s ≤ (⌈b * -s⌉ : ℚ) := Int.le_ceil _
    exact_mod_cast h1.trans (h2.trans h3)
  refine ⟨hform, ?_, ?_, ?_, ?_⟩
  · rw [hform, List.head?_eq_getElem?, List.getElem?_map, List.getElem?_range (by omega)]
    simp
  · exact (div_le_iff₀ hsc).mpr (Int.floor_le _)
  · rw [hform, List.getLast?_eq_getElem?, List.length_map, List.length_range,
      List.getElem?_map, List.getElem?_range (by omega)]
    have hvz : (⌊a * -s⌋ + (((⌈b * -s⌉ - ⌊a * -s⌋ + 1).toNat - 1 : ℕ) : ℤ)) = ⌈b * -s⌉ := by
      omega
    simp only [Option.map_some']
    rw [Option.some.injEq, hvz]
  · exact (le_div_iff₀ hsc).mpr (Int.le_ceil _)

lemma tick_increment_0_half_1 : tick_increment (F.fin 0) (F.fin (1 / 2)) 1 = F.fin (-2) := by
  have hr : tick_increment (F.fin 0) (F.fin (1 / 2)) 1 = tickIncrFrom (F.fin (1 / 2)) := by
    rw [tick_increment, F.sub_fin_fin, Nat.cast_one, F.div_fin_fin _ _ one_ne_zero]
    norm_num
  have hlog : Int.log 10 ((1 : ℚ) / 2) = -1 := by
    apply int_log_eq (by norm_num)
    · rw [zpow_neg]
      norm_num
    · norm_num
  rw [hr, tickIncrFrom_pos _ (by norm_num), hlog]
  norm_num [zpow_neg]

lemma downTicks_eval_0_half :
    downTicks (F.fin 0) (F.fin (1 / 2)) (F.fin (-2)) = some [F.fin 0, F.fin (1 / 2)] := by
  norm_num [downTicks, F.div, F.ceil, F.floor, F.sub, F.add, F.mul, F.toUsize]
  rw [show List.range (Int.toNat 2) = [0, 1] from rfl]
  norm_num

/-- Witness for C3 at `start = 0`, `stop = 1/2`, `count = 1`, step `-2`. -/
theorem ticks_negative_branch_witness :
    (0 : ℚ) ≤ 1 / 2 ∧ tick_increment (F.fin 0) (F.fin (1 / 2)) 1 = F.fin (-2) ∧
      ((-2 : ℚ) < 0) ∧
      downTicks (F.fin 0) (F.fin (1 / 2)) (F.fin (-2)) = some [F.fin 0, F.fin (1 / 2)] ∧
      (([F.fin 0, F.fin (1 / 2)] : List F) =
          (List.range (⌈(1 / 2 : ℚ) * -(-2)⌉ - ⌊(0 : ℚ) * -(-2)⌋ + 1).toNat).map
            (fun n : ℕ => F.fin (((⌊(0 : ℚ) * -(-2)⌋ + n : ℤ) : ℚ) / -(-2))) ∧
        ([F.fin 0, F.fin (1 / 2)] : List F).head? =
          some (F.fin ((⌊(0 : ℚ) * -(-2)⌋ : ℚ) / -(-2))) ∧
        ((⌊(0 : ℚ) * -(-2)⌋ : ℚ) / -(-2)) ≤ 0 ∧
        ([F.fin 0, F.fin (1 / 2)] : List F).getLast? =
          some (F.fin ((⌈(1 / 2 : ℚ) * -(-2)⌉ : ℚ) / -(-2))) ∧
        (1 / 2 : ℚ) ≤ ((⌈(1 / 2 : ℚ) * -(-2)⌉ : ℚ) / -(-2))) :=
  ⟨by norm_num, tick_increment_0_half_1, by norm_num, downTicks_eval_0_half,
    ticks_negative_branch 0 (1 / 2) (-2) 1 [F.fin 0, F.fin (1 / 2)] (by norm_num)
      tick_increment_0_half_1 (by norm_num) downTicks_eval_0_half⟩

lemma int_log_ratCast (q : ℚ) (hq : 0 < q) : Int.log 10 ((q : ℝ)) = Int.log 10 q := by
  have hq' : (0 : ℝ) < (q : ℝ) := by exact_mod_cast hq
  have h1 : ((10 : ℕ) : ℝ) ^ (Int.log 10 q) ≤ (q : ℝ) := by
    have hq1 := Int.zpow_log_le_self (R := ℚ) (b := 10) (by norm_num) hq
    rw [show ((10 : ℕ) : ℝ) = (((10 : ℕ) : ℚ) : ℝ) from by norm_num, ← Rat.cast_zpow]
    exact Rat.cast_le.mpr hq1
  have h2 : (q : ℝ) < ((10 : ℕ) : ℝ) ^ (Int.log 10 q + 1) := by
    have hq2 := Int.lt_zpow_succ_log_self (R := ℚ) (b := 10) (by norm_num) q
    rw [show ((10 : ℕ) : ℝ) = (((10 : ℕ) : ℚ) : ℝ) from by norm_num, ← Rat.cast_zpow]
    exact Rat.cast_lt.mpr hq2
  have ha := (Int.zpow_le_iff_le_log (by norm_num) hq').mp h1
  have hb := (Int.lt_zpow_iff_log_lt (by norm_num) hq').mp h2
  omega

lemma floor_logb_ratCast (q : ℚ) (hq : 0 < q) :
    ⌊Real.logb 10 (q : ℝ)⌋ = Int.log 10 q := by
  have h0 : (0 : ℝ) ≤ (q : ℝ) := by exact_mod_cast hq.le
  have h := Real.floor_logb_natCast (b := 10) (r := (q : ℝ)) h0
  rw [int_log_ratCast q hq] at h
  simpa using h

/-- Modelled from the spec's words for the Step Selector, over the exact
real numbers: `raw_step = (stop-start)/count`,
`power = floor(log10 raw_step)`, `error = raw_step / 10^power`, the nice
mantissa `v` selected by comparison with `sqrt 50`, `sqrt 10`, `sqrt 2`,
returning `v * 10^power` when `power ≥ 0` and `(-1 * 10^(-power)) / v`
when `power < 0`. -/
noncomputable def tickIncrementSpec (start stop : ℝ) (count : ℕ) : ℝ :=
  let rawStep := (stop - start) / count
  let power : ℤ := ⌊Real.logb 10 rawStep⌋
  let error := rawStep / (10 : ℝ) ^ power
  let v : ℝ :=
    if Real.sqrt 50 ≤ error then 10
    else if Real.sqrt 10 ≤ error then 5
    else if Real.sqrt 2 ≤ error then 2
    else 1
  if 0 ≤ power then v * (10 : ℝ) ^ power
  else -1 * (10 : ℝ) ^ (-power) / v

/-- C1: on a nondegenerate normalized interval the implemented step
selector computes exactly the spec's real-number formula (the result is a
finite value whose exact rational equals the spec expression). -/
theorem tick_increment_refines_spec (a b : ℚ) (count : ℕ)
    (hab : a < b) (hcount : 1 ≤ count) :
    ∃ q : ℚ, tick_increment (F.fin a) (F.fin b) count = F.fin q ∧
      (q : ℝ) = tickIncrementSpec (a : ℝ) (b : ℝ) count := by
  have hcQ : ((count : ℚ)) ≠ 0 := Nat.cast_ne_zero.mpr (by omega)
  have hcpos : (0 : ℚ) < (count : ℚ) := by exact_mod_cast (by omega : 0 < count)
  have hTI : tick_increment (F.fin a) (F.fin b) count =
      tickIncrFrom (F.fin ((b - a) / count)) := by
    rw [tick_increment, F.sub_fin_fin, F.div_fin_fin _ _ hcQ]
  have hrpos : 0 < (b - a) / (count : ℚ) := div_pos (by linarith) hcpos
  rw [hTI, tickIncrFrom_pos _ hrpos]
  refine ⟨_, rfl, ?_⟩
  rw [tickIncrementSpec]
  dsimp only
  set r : ℚ := (b - a) / count with hr
  set z : ℤ := Int.log 10 r with hz
  set e : ℚ := r / 10 ^ z with he
  have hepos : 0 < e := div_pos hrpos (zpow_pos (by norm_num) _)
  have he0R : (0 : ℝ) ≤ ((e : ℚ) : ℝ) := by exact_mod_cast hepos.le
  have hrR : ((b : ℝ) - (a : ℝ)) / ((count : ℕ) : ℝ) = ((r : ℚ) : ℝ) := by
    rw [hr]
    push_cast
    ring
  rw [hrR, floor_logb_ratCast r hrpos, ← hz]
  have heR : ((r : ℚ) : ℝ) / (10 : ℝ) ^ z = ((e : ℚ) : ℝ) := by
    rw [he]
    push_cast
    ring
  rw [heR]
  have hv50 : (Real.sqrt 50 ≤ ((e : ℚ) : ℝ)) ↔ (50 ≤ e ^ 2) := by
    rw [show (50 : ℝ) = ((50 : ℚ) : ℝ) from by norm_num, Real.sqrt_le_left he0R]
    exact ⟨fun h => by exact_mod_cast h, fun h => by exact_mod_cast h⟩
  have hv10 : (Real.sqrt 10 ≤ ((e : ℚ) : ℝ)) ↔ (10 ≤ e ^ 2) := by
    rw [show (10 : ℝ) = ((10 : ℚ) : ℝ) from by norm_num, Real.sqrt_le_left he0R]
    exact ⟨fun h => by exact_mod_cast h, fun h => by exact_mod_cast h⟩
  have hv2 : (Real.sqrt 2 ≤ ((e : ℚ) : ℝ)) ↔ (2 ≤ e ^ 2) := by
    rw [show (2 : ℝ) = ((2 : ℚ) : ℝ) from by norm_num, Real.sqrt_le_left he0R]
    exact ⟨fun h => by exact_mod_cast h, fun h => by exact_mod_cast h⟩
  by_cases c50 : 50 ≤ e ^ 2
  · rw [if_pos c50, if_pos (hv50.mpr c50)]
    by_cases cz : 0 ≤ z
    · rw [if_pos cz, if_pos cz]
      push_cast
      ring
    · rw [if_neg cz, if_neg cz]
      push_cast [zpow_neg]
      ring
  · rw [if_neg c50, if_neg (fun h => c50 (hv50.mp h))]
    by_cases c10 : 10 ≤ e ^ 2
    · rw [if_pos c10, if_pos (hv10.mpr c10)]
      by_cases cz : 0 ≤ z
      · rw [if_pos cz, if_pos cz]
        push_cast
        ring
      · rw [if_neg cz, if_neg cz]
        push_cast [zpow_neg]
        ring
    · rw [if_neg c10, if_neg (fun h => c10 (hv10.mp h))]
      by_cases c2 : 2 ≤ e ^ 2
      · rw [if_pos c2, if_pos (hv2.mpr c2)]
        by_cases cz : 0 ≤ z
        · rw [if_pos cz, if_pos cz]
          push_cast
          ring
        · rw [if_neg cz, if_neg cz]
          push_cast [zpow_neg]
          ring
      · rw [if_neg c2, if_neg (fun h => c2 (hv2.mp h))]
        by_cases cz : 0 ≤ z
        · rw [if_pos cz, if_pos cz]
          push_cast
          ring
        · rw [if_neg cz, if_neg cz]
          push_cast [zpow_neg]
          ring

/-- Witness for C1 at `start = 0`, `stop = 1`, `count = 10`. -/
theorem tick_increment_refines_spec_witness :
    (0 : ℚ) < 1 ∧ 1 ≤ 10 ∧
      ∃ q : ℚ, tick_increment (F.fin 0) (F.fin 1) 10 = F.fin q ∧
        (q : ℝ) = tickIncrementSpec ((0 : ℚ) : ℝ) ((1 : ℚ) : ℝ) 10 :=
  ⟨by norm_num, by norm_num,
    tick_increment_refines_spec 0 1 10 (by norm_num) (by norm_num)⟩

/-- C6: for `start < stop`, calling with the endpoints exchanged yields the
exact reverse sequence (and a panic on one side is a panic on the other). -/
theorem ticks_reversal (start stop : F) (count : ℕ) (h : start.blt stop = true) :
    ticks stop start count = (ticks start stop count).map List.reverse := by
  obtain ⟨hne, hne', hrev⟩ := F.blt_facts start stop h
  rw [ticks_fwd start stop count hne hrev, ticks_rev stop start count hne' h]
  by_cases hcond : (tick_increment start stop count).isZero = true ∨
      (tick_increment start stop count).isFinite = false
  · simp [hcond]
  · simp [hcond]

/-- Witness for C6 at `start = 0`, `stop = 1`, `count = 1`. -/
theorem ticks_reversal_witness :
    (F.fin 0).blt (F.fin 1) = true ∧
      ticks (F.fin 1) (F.fin 0) 1 = (ticks (F.fin 0) (F.fin 1) 1).map List.reverse :=
  ⟨by decide, ticks_reversal (F.fin 0) (F.fin 1) 1 (by decide)⟩
